import Mathlib

/-!
Verification of the track-reconstruction scoring metrics
(`Practice_1/code/metrics.py`): the hit-matching scorer
(`HitsMatchingEfficiency.fit`) and the parameter-matching scorer
(`ParameterMatchingEfficiency.fit`).

Events are lists of hits; `numpy.unique` is modelled by `uniqueSorted`
(the ascending list of distinct values), boolean-mask selection
(`a[mask]`) by `zip`/`filter`, and the ordinary-least-squares fit of
`sklearn.linear_model.LinearRegression` by its closed form over `ℚ`
(minimum-norm solution when the design matrix is singular, which is what
`numpy.linalg.lstsq` returns).
-/

namespace Metrics

/-- Insert an integer into an ascending duplicate-free list, keeping it
ascending and duplicate-free. -/
def insertSorted (x : ℤ) : List ℤ → List ℤ
  | [] => [x]
  | y :: ys =>
    if x < y then x :: y :: ys
    else if x = y then y :: ys
    else y :: insertSorted x ys

/-- Models `numpy.unique`: the ascending list of distinct values of a list. -/
def uniqueSorted (l : List ℤ) : List ℤ :=
  l.foldr insertSorted []

theorem mem_insertSorted {a x : ℤ} {l : List ℤ} :
    a ∈ insertSorted x l ↔ a = x ∨ a ∈ l := by
  induction l with
  | nil => simp [insertSorted]
  | cons y ys ih =>
    by_cases h1 : x < y
    · simp [insertSorted, h1]
    · by_cases h2 : x = y
      · subst h2
        simp only [insertSorted, h1, if_false, if_true, List.mem_cons]
        tauto
      · simp only [insertSorted, h1, h2, if_false, List.mem_cons, ih]
        tauto

theorem pairwise_insertSorted {x : ℤ} {l : List ℤ}
    (h : l.Pairwise (· < ·)) : (insertSorted x l).Pairwise (· < ·) := by
  induction l with
  | nil => simp [insertSorted]
  | cons y ys ih =>
    rcases List.pairwise_cons.mp h with ⟨hy, hys⟩
    by_cases h1 : x < y
    · simp only [insertSorted, h1, if_true]
      refine List.pairwise_cons.mpr ⟨?_, h⟩
      intro a ha
      rcases List.mem_cons.mp ha with rfl | ha
      · exact h1
      · exact lt_trans h1 (hy a ha)
    · by_cases h2 : x = y
      · simpa [insertSorted, h1, h2] using h
      · have hyx : y < x := lt_of_le_of_ne (not_lt.mp h1) (Ne.symm h2)
        simp only [insertSorted, h1, h2, if_false]
        refine List.pairwise_cons.mpr ⟨?_, ih hys⟩
        intro a ha
        rcases mem_insertSorted.mp ha with rfl | ha
        · exact hyx
        · exact hy a ha

theorem pairwise_uniqueSorted (l : List ℤ) :
    (uniqueSorted l).Pairwise (· < ·) := by
  induction l with
  | nil => simp [uniqueSorted]
  | cons a l ih => exact pairwise_insertSorted ih

theorem mem_uniqueSorted {a : ℤ} {l : List ℤ} :
    a ∈ uniqueSorted l ↔ a ∈ l := by
  induction l with
  | nil => simp [uniqueSorted]
  | cons b l ih =>
    show a ∈ insertSorted b (uniqueSorted l) ↔ _
    rw [mem_insertSorted]
    simp [ih]

theorem nodup_uniqueSorted (l : List ℤ) : (uniqueSorted l).Nodup := by
  exact (pairwise_uniqueSorted l).imp ne_of_lt

/-- A hit of the event table: its ground-truth `TrackID` and the planar
coordinates `X`, `y` used for line fitting. -/
structure Hit where
  trackID : ℤ
  x : ℚ
  y : ℚ
deriving DecidableEq

/-- Models `counts.max()` of `numpy.unique(track, return_counts=True)`: the
largest multiplicity of a value in `track`. -/
def maxCount (track : List ℤ) : ℕ :=
  ((uniqueSorted track).map (fun v => track.count v)).foldr max 0

/-- Models `unique[counts == counts.max()][0]`: the first value of the
ascending distinct-value list whose multiplicity is maximal (the group's
dominant true track).  The value `0` for the empty list is never reached
(groups are non-empty). -/
def dominantOf (track : List ℤ) : ℤ :=
  match (uniqueSorted track).find? (fun v => track.count v = maxCount track) with
  | some v => v
  | none => 0

/-- Models `1. * counts.max() / len(track)`: the group's efficiency. -/
def effOf (track : List ℤ) : ℚ :=
  (maxCount track : ℚ) / (track.length : ℚ)

/-- The distinct non-`-1` labels, in ascending order: the reconstructed
groups the loop `for label in unique_labels: if label != -1` iterates. -/
def hmGroups (labels : List ℤ) : List ℤ :=
  (uniqueSorted labels).filter (· ≠ -1)

/-- Models `true_labels[labels == label]`: the TrackIDs of the hits the
recognized group `g` consists of. -/
def groupOf (event : List Hit) (labels : List ℤ) (g : ℤ) : List ℤ :=
  ((labels.zip (event.map Hit.trackID)).filter (fun p => p.1 = g)).map Prod.snd

/-- The per-group efficiencies, one per distinct non-`-1` label in
ascending label order (the local `efficiencies` list of `fit`). -/
def hmEfficiencies (event : List Hit) (labels : List ℤ) : List ℚ :=
  (hmGroups labels).map (fun g => effOf (groupOf event labels g))

/-- The per-group dominant TrackIDs, aligned with `hmEfficiencies`
(the local `tracks_id` list of `fit`). -/
def hmTracksId (event : List Hit) (labels : List ℤ) : List ℤ :=
  (hmGroups labels).map (fun g => dominantOf (groupOf event labels g))

/-- Models `(numpy.unique(event.TrackID.values) != -1).sum()`: the number of
distinct non-`-1` TrackIDs of the event. -/
def nTracksOf (event : List Hit) : ℕ :=
  ((uniqueSorted (event.map Hit.trackID)).filter (· ≠ -1)).length

/-- The result fields `HitsMatchingEfficiency.fit` stores on the
instance.  `avg_efficiency_` is `none` when there is no group at all
(`numpy` mean of an empty array, a NaN). -/
structure HMResult where
  efficiencies_ : List ℚ
  avg_efficiency_ : Option ℚ
  reconstruction_efficiency_ : ℚ
  ghost_rate_ : ℚ
  clone_rate_ : ℚ
deriving DecidableEq

/-- Models `reco_tracks_id = tracks_id[efficiencies >= self.eff_threshold]`:
the dominant TrackIDs of the groups whose efficiency passes the
threshold. -/
def hmReco (thr : ℚ) (event : List Hit) (labels : List ℤ) : List ℤ :=
  (((hmEfficiencies event labels).zip (hmTracksId event labels)).filter
    (fun p => thr ≤ p.1)).map Prod.snd

/-- Models `reco_tracks_id[reco_tracks_id != -1]`. -/
def hmRecoNZ (thr : ℚ) (event : List Hit) (labels : List ℤ) : List ℤ :=
  (hmReco thr event labels).filter (· ≠ -1)

/-- Models `HitsMatchingEfficiency.fit(event, labels)` with threshold `thr`.
Mirrors the source line by line; the clone rate is
`(counts - numpy.ones(len(counts))).sum() / n_tracks` over
`numpy.unique(reco_tracks_id[reco_tracks_id != -1],
return_counts=True)`. -/
def hitsFit (thr : ℚ) (event : List Hit) (labels : List ℤ) : HMResult :=
  let effs := hmEfficiencies event labels
  let n := nTracksOf event
  let recoNZ := hmRecoNZ thr event labels
  let uniqueReco := uniqueSorted recoNZ
  { efficiencies_ := effs
    avg_efficiency_ :=
      if effs.length = 0 then none else some (effs.sum / (effs.length : ℚ))
    reconstruction_efficiency_ :=
      if 0 < n then (uniqueReco.length : ℚ) / (n : ℚ) else 0
    ghost_rate_ :=
      if 0 < n then
        (((hmTracksId event labels).length : ℚ) - (recoNZ.length : ℚ)) /
          (n : ℚ)
      else 0
    clone_rate_ :=
      if 0 < n then
        (uniqueReco.map (fun v => (recoNZ.count v : ℚ) - 1)).sum / (n : ℚ)
      else 0 }

/-- Models `sklearn.linear_model.LinearRegression().fit(X, y)` on one predictor
column: ordinary least squares with an intercept.  After centering, the
coefficient solves `Sxx * k = Sxy` by `numpy.linalg.lstsq`, whose
minimum-norm solution is `k = 0` when `Sxx = 0` (fewer than two points or
zero variance in `X`); the intercept is `ȳ - k * x̄`.  The `(0, 0)` value
for an empty point list is never reached (tracks and groups are
non-empty). -/
def olsFit (pts : List (ℚ × ℚ)) : ℚ × ℚ :=
  if pts.length = 0 then (0, 0)
  else
    let n : ℚ := (pts.length : ℚ)
    let xbar := (pts.map Prod.fst).sum / n
    let ybar := (pts.map Prod.snd).sum / n
    let sxx := (pts.map (fun p => (p.1 - xbar) ^ 2)).sum
    let sxy := (pts.map (fun p => (p.1 - xbar) * (p.2 - ybar))).sum
    let k := if sxx = 0 then 0 else sxy / sxx
    (k, ybar - k * xbar)

/-- The `(X, y)` points of the true track with TrackID `t`
(`event[event.TrackID == label]`). -/
def truePoints (event : List Hit) (t : ℤ) : List (ℚ × ℚ) :=
  (event.filter (fun h => h.trackID = t)).map (fun h => (h.x, h.y))

/-- The `(X, y)` points of the recognized group `g`
(`event[labels == label]`). -/
def groupPoints (event : List Hit) (labels : List ℤ) (g : ℤ) : List (ℚ × ℚ) :=
  ((labels.zip event).filter (fun p => p.1 = g)).map (fun p => (p.2.x, p.2.y))

/-- Models `true_params`: `(slope, intercept)` per distinct non-`-1` TrackID,
in ascending TrackID order. -/
def trueParams (event : List Hit) : List (ℚ × ℚ) :=
  ((uniqueSorted (event.map Hit.trackID)).filter (· ≠ -1)).map
    (fun t => olsFit (truePoints event t))

/-- Models `params`: `(slope, intercept)` per distinct non-`-1` label, in
ascending label order. -/
def recoParams (event : List Hit) (labels : List ℤ) : List (ℚ × ℚ) :=
  (hmGroups labels).map (fun g => olsFit (groupPoints event labels g))

/-- Models `abs(one_true_param[0] - one_param[0]) <= delta_k &
abs(one_true_param[1] - one_param[1]) <= delta_b`. -/
def matchParam (dk db : ℚ) (tp p : ℚ × ℚ) : Bool :=
  decide (|tp.1 - p.1| ≤ dk) && decide (|tp.2 - p.2| ≤ db)

/-- State after scanning (part of) the inner loop over the true tracks
for one recognized group: `m` is `n_matchings` so far, `r` the number of
`n_reconstructions` increments, `tus` the remaining `(true_param,
true_used)` entries after updates, `u` the group's `used` flag. -/
structure ScanState where
  m : ℕ
  r : ℕ
  tus : List ((ℚ × ℚ) × Bool)
  u : Bool
deriving DecidableEq

/-- The inner loop `for true_id, one_true_param in enumerate(true_params)`
of `ParameterMatchingEfficiency.fit` for one group with parameters `p`:
each matching pair raises `n_matchings`; the first time both the group
and the true track are unused, `n_reconstructions` rises and both are
marked used.  (`used[id]` is read and written only during the group's own
scan, so it is carried as the local flag `u`.) -/
def innerScan (dk db : ℚ) (p : ℚ × ℚ) :
    List ((ℚ × ℚ) × Bool) → Bool → ScanState
  | [], u => ⟨0, 0, [], u⟩
  | t :: rest, u =>
    if matchParam dk db t.1 p then
      if !t.2 && !u then
        let s := innerScan dk db p rest true
        ⟨s.m + 1, s.r + 1, (t.1, true) :: s.tus, s.u⟩
      else
        let s := innerScan dk db p rest u
        ⟨s.m + 1, s.r, t :: s.tus, s.u⟩
    else
      let s := innerScan dk db p rest u
      ⟨s.m, s.r, t :: s.tus, s.u⟩

/-- The outer loop `for id, one_param in enumerate(params)`: returns
`(n_reconstructions, n_ghosts, final true_used entries)`.  A group whose
scan found `n_matchings == 0` raises `n_ghosts`. -/
def outerScan (dk db : ℚ) :
    List (ℚ × ℚ) → List ((ℚ × ℚ) × Bool) → ℕ × ℕ × List ((ℚ × ℚ) × Bool)
  | [], tus => (0, 0, tus)
  | p :: ps, tus =>
    let s := innerScan dk db p tus false
    let rest := outerScan dk db ps s.tus
    (s.r + rest.1, (if s.m = 0 then 1 else 0) + rest.2.1, rest.2.2)

/-- The result fields `ParameterMatchingEfficiency.fit` stores on the
instance. -/
structure PMResult where
  reconstruction_efficiency_ : ℚ
  ghost_rate_ : ℚ
  clone_rate_ : ℚ
deriving DecidableEq

/-- Models `ParameterMatchingEfficiency.fit(event, labels)` with tolerances
`dk = delta_k`, `db = delta_b`. -/
def paramFit (dk db : ℚ) (event : List Hit) (labels : List ℤ) : PMResult :=
  let n := nTracksOf event
  let tps := trueParams event
  let ps := recoParams event labels
  let res := outerScan dk db ps (tps.map (fun t => (t, false)))
  if 0 < n then
    { reconstruction_efficiency_ := (res.1 : ℚ) / (n : ℚ)
      ghost_rate_ := (res.2.1 : ℚ) / (n : ℚ)
      clone_rate_ := ((ps.length : ℚ) - (res.1 : ℚ) - (res.2.1 : ℚ)) / (n : ℚ) }
  else ⟨0, 0, 0⟩

/-- The error cases of the two `fit` operations.  The specification
names `InputShapeError` and `DegenerateFitError`; neither exists in the
code, which performs no input validation and raises neither.  The one
real error path is the pandas `ValueError` complaining about a wrong
item length, raised when the parameter-matching scorer indexes the
event table with a wrong-length boolean mask; `maskLengthError` models
it. -/
inductive FitError where
  | inputShapeError : FitError
  | degenerateFitError : FitError
  | maskLengthError : FitError
deriving DecidableEq

/-- Models `ParameterMatchingEfficiency.fit` as a fallible operation.
The source raises nothing of its own (the OLS fit of a degenerate
track/group returns the minimum-norm solution instead of failing), but
when the labels length differs from the hit count, the group loop's
`event[labels == label]` indexes the event table with a wrong-length
boolean mask and pandas raises its wrong-item-length `ValueError`; that
line is reached exactly when some non-`-1` label exists.  Every other
input yields `Except.ok`. -/
def paramFitE (dk db : ℚ) (event : List Hit) (labels : List ℤ) :
    Except FitError PMResult :=
  if labels.length ≠ event.length ∧ hmGroups labels ≠ [] then
    Except.error FitError.maskLengthError
  else Except.ok (paramFit dk db event labels)

/-- Modelled from the spec: "let `R` = groups with efficiency ≥
threshold; let `D` = distinct non`-1` dominant TrackIDs among `R`.
Ghost rate = (|R| − |D|) / n_tracks." -/
def specGhostRate (thr : ℚ) (event : List Hit) (labels : List ℤ) : ℚ :=
  let effs := hmEfficiencies event labels
  let tids := hmTracksId event labels
  let R := (effs.zip tids).filter (fun p => thr ≤ p.1)
  let D := uniqueSorted ((R.map Prod.snd).filter (· ≠ -1))
  ((R.length : ℚ) - (D.length : ℚ)) / (nTracksOf event : ℚ)

/-- What the code actually divides by `n_tracks` in the ghost rate: the
total number of groups minus the number of groups that both pass the
threshold and have a dominant TrackID other than `-1` (counted with
multiplicity, not deduplicated). -/
def amendedGhostRate (thr : ℚ) (event : List Hit) (labels : List ℤ) : ℚ :=
  let gs := hmGroups labels
  let qualifying := gs.countP (fun g =>
    decide (thr ≤ effOf (groupOf event labels g)) &&
      decide (dominantOf (groupOf event labels g) ≠ -1))
  ((gs.length : ℚ) - (qualifying : ℚ)) / (nTracksOf event : ℚ)

/-- The number of `true_used` flags currently set among the
`(true_param, used)` entries. -/
def usedCount (l : List ((ℚ × ℚ) × Bool)) : ℕ :=
  l.countP (fun t => t.2)

/-- Modelled from the spec: scanning the `(true_param, used)` entries in
ascending TrackID order, pair the group with the first still-unused
matching true track, marking it used; reports whether a pairing
happened. -/
def specFlipFirst (dk db : ℚ) (p : ℚ × ℚ) :
    List ((ℚ × ℚ) × Bool) → Bool × List ((ℚ × ℚ) × Bool)
  | [] => (false, [])
  | t :: rest =>
    if matchParam dk db t.1 p && !t.2 then (true, (t.1, true) :: rest)
    else
      let s := specFlipFirst dk db p rest
      (s.1, t :: s.2)

/-- Modelled from the spec: greedy first-found-wins assignment over the
groups in ascending label order; a group pairing with a previously
unused true track counts one reconstruction, a group matching no true
track at all counts one ghost.  Returns
`(n_reconstructions, n_ghosts)`. -/
def specGreedyCounts (dk db : ℚ) :
    List (ℚ × ℚ) → List ((ℚ × ℚ) × Bool) → ℕ × ℕ
  | [], _ => (0, 0)
  | p :: ps, tus =>
    let matched := tus.countP (fun t => matchParam dk db t.1 p)
    let flip := specFlipFirst dk db p tus
    let rest := specGreedyCounts dk db ps flip.2
    ((if flip.1 then 1 else 0) + rest.1,
      (if matched = 0 then 1 else 0) + rest.2)

end Metrics

namespace Metrics

theorem foldr_max_le {b : ℕ} : ∀ {l : List ℕ}, (∀ x ∈ l, x ≤ b) →
    l.foldr max 0 ≤ b
  | [], _ => Nat.zero_le b
  | x :: xs, h => by
    simp only [List.foldr, max_le_iff]
    exact ⟨h x (List.mem_cons_self x xs),
      foldr_max_le (fun y hy => h y (List.mem_cons_of_mem x hy))⟩

theorem le_foldr_max {x : ℕ} : ∀ {l : List ℕ}, x ∈ l → x ≤ l.foldr max 0 := by
  intro l hl
  induction l with
  | nil => simp at hl
  | cons y ys ih =>
    rcases List.mem_cons.mp hl with rfl | h
    · exact le_max_left _ _
    · exact le_trans (ih h) (le_max_right _ _)

theorem foldr_max_mem : ∀ {l : List ℕ}, l ≠ [] → l.foldr max 0 ∈ l := by
  intro l hl
  induction l with
  | nil => exact absurd rfl hl
  | cons y ys ih =>
    cases ys with
    | nil => simp
    | cons z zs =>
      rcases max_cases y ((z :: zs).foldr max 0) with ⟨hm, _⟩ | ⟨hm, _⟩
      · simp only [List.foldr] at hm ⊢
        rw [hm]
        exact List.mem_cons_self _ _
      · simp only [List.foldr] at hm ⊢
        rw [hm]
        exact List.mem_cons_of_mem _ (ih (by simp))

theorem count_le_maxCount (track : List ℤ) (v : ℤ) :
    track.count v ≤ maxCount track := by
  by_cases hv : v ∈ track
  · exact le_foldr_max (List.mem_map_of_mem _ (mem_uniqueSorted.mpr hv))
  · rw [List.count_eq_zero_of_not_mem hv]
    exact Nat.zero_le _

theorem maxCount_le_length (track : List ℤ) :
    maxCount track ≤ track.length := by
  refine foldr_max_le ?_
  intro x hx
  rcases List.mem_map.mp hx with ⟨v, _, rfl⟩
  exact List.count_le_length v track

theorem one_le_maxCount {track : List ℤ} (h : track ≠ []) :
    1 ≤ maxCount track := by
  rcases List.exists_mem_of_ne_nil track h with ⟨x, hx⟩
  exact le_trans (List.count_pos_iff.mpr hx) (count_le_maxCount track x)

theorem find?_dominant_isSome {track : List ℤ} (h : track ≠ []) :
    ((uniqueSorted track).find?
      (fun v => track.count v = maxCount track)).isSome := by
  rcases List.exists_mem_of_ne_nil track h with ⟨x, hx⟩
  have hmem : maxCount track ∈
      (uniqueSorted track).map (fun v => track.count v) :=
    foldr_max_mem (by
      intro hemp
      exact absurd (List.mem_map_of_mem (fun v => track.count v)
        (mem_uniqueSorted.mpr hx)) (by simp [hemp]))
  rcases List.mem_map.mp hmem with ⟨v, hv, hcv⟩
  exact List.find?_isSome.mpr ⟨v, hv, by simp [hcv]⟩

theorem count_dominantOf {track : List ℤ} (h : track ≠ []) :
    track.count (dominantOf track) = maxCount track := by
  rcases Option.isSome_iff_exists.mp (find?_dominant_isSome h) with ⟨v, hv⟩
  have := List.find?_some hv
  simp only [decide_eq_true_eq] at this
  simpa [dominantOf, hv] using this

theorem dominantOf_mem {track : List ℤ} (h : track ≠ []) :
    dominantOf track ∈ track := by
  refine List.count_pos_iff.mp ?_
  rw [count_dominantOf h]
  exact one_le_maxCount h

theorem find?_sorted_le {u : List ℤ} {p : ℤ → Bool} :
    u.Pairwise (· < ·) → ∀ {a : ℤ}, u.find? p = some a →
    ∀ {w : ℤ}, w ∈ u → p w → a ≤ w := by
  induction u with
  | nil => intro _ a ha; simp [List.find?] at ha
  | cons y ys ih =>
    intro hp a ha w hw hpw
    rcases List.pairwise_cons.mp hp with ⟨hy, hys⟩
    by_cases hpy : p y
    · rw [List.find?_cons_of_pos _ hpy] at ha
      cases ha
      rcases List.mem_cons.mp hw with rfl | hw
      · exact le_refl _
      · exact le_of_lt (hy w hw)
    · rw [List.find?_cons_of_neg _ hpy] at ha
      rcases List.mem_cons.mp hw with rfl | hw
      · exact absurd hpw hpy
      · exact ih hys ha hw hpw

theorem dominantOf_le {track : List ℤ} (h : track ≠ []) {v : ℤ}
    (hvm : v ∈ track) (hv : track.count v = maxCount track) :
    dominantOf track ≤ v := by
  rcases Option.isSome_iff_exists.mp (find?_dominant_isSome h) with ⟨a, ha⟩
  have hd : dominantOf track = a := by simp [dominantOf, ha]
  rw [hd]
  exact find?_sorted_le (pairwise_uniqueSorted track) ha
    (mem_uniqueSorted.mpr hvm) (by simp [hv])

theorem exists_zip_pair {α β : Type} :
    ∀ (l1 : List α) (l2 : List β), l1.length = l2.length →
    ∀ g ∈ l1, ∃ b, (g, b) ∈ l1.zip l2 := by
  intro l1
  induction l1 with
  | nil => intro l2 _ g hg; simp at hg
  | cons x xs ih =>
    intro l2 hlen g hg
    cases l2 with
    | nil => simp at hlen
    | cons y ys =>
      rcases List.mem_cons.mp hg with rfl | hg
      · exact ⟨y, List.mem_cons_self _ _⟩
      · rcases ih ys (by simpa using hlen) g hg with ⟨b, hb⟩
        exact ⟨b, List.mem_cons_of_mem _ hb⟩

theorem groupOf_subset (event : List Hit) (labels : List ℤ) (g : ℤ) :
    groupOf event labels g ⊆ event.map Hit.trackID := by
  intro v hv
  rcases List.mem_map.mp hv with ⟨⟨a, b⟩, hab, rfl⟩
  exact (List.of_mem_zip (List.mem_of_mem_filter hab)).2

theorem groupOf_ne_nil {event : List Hit} {labels : List ℤ} {g : ℤ}
    (hlen : labels.length = event.length) (hg : g ∈ labels) :
    groupOf event labels g ≠ [] := by
  rcases exists_zip_pair labels (event.map Hit.trackID)
      (by simpa using hlen) g hg with ⟨b, hb⟩
  intro hemp
  have : (g, b) ∈ (labels.zip (event.map Hit.trackID)).filter
      (fun p => p.1 = g) := List.mem_filter.mpr ⟨hb, by simp⟩
  have : b ∈ groupOf event labels g := List.mem_map_of_mem Prod.snd this
  rw [hemp] at this
  simp at this

theorem length_le_of_nodup_subset {u l : List ℤ} (hn : u.Nodup)
    (hsub : u ⊆ l) : u.length ≤ l.length := by
  calc u.length = u.toFinset.card := (List.toFinset_card_of_nodup hn).symm
    _ ≤ l.toFinset.card := Finset.card_le_card (by
        intro a ha
        simp only [List.mem_toFinset] at *
        exact hsub ha)
    _ ≤ l.length := l.toFinset_card_le

theorem hmReco_eq (thr : ℚ) (event : List Hit) (labels : List ℤ) :
    hmReco thr event labels =
      ((hmGroups labels).filter
        (fun g => decide (thr ≤ effOf (groupOf event labels g)))).map
        (fun g => dominantOf (groupOf event labels g)) := by
  unfold hmReco hmEfficiencies hmTracksId
  rw [List.zip_map', List.filter_map, List.map_map]
  rfl

theorem hmRecoNZ_eq (thr : ℚ) (event : List Hit) (labels : List ℤ) :
    hmRecoNZ thr event labels =
      (((hmGroups labels).filter
        (fun g => decide (thr ≤ effOf (groupOf event labels g)))).map
        (fun g => dominantOf (groupOf event labels g))).filter (· ≠ -1) := by
  rw [hmRecoNZ, hmReco_eq]

theorem hmRecoNZ_length (thr : ℚ) (event : List Hit) (labels : List ℤ) :
    (hmRecoNZ thr event labels).length =
      (hmGroups labels).countP (fun g =>
        decide (thr ≤ effOf (groupOf event labels g)) &&
          decide (dominantOf (groupOf event labels g) ≠ -1)) := by
  rw [hmRecoNZ_eq, ← List.countP_eq_length_filter, List.countP_map,
    List.countP_filter]
  congr 1
  funext a
  simp [Function.comp, Bool.and_comm]

theorem hmRecoNZ_length_le (thr : ℚ) (event : List Hit) (labels : List ℤ) :
    (hmRecoNZ thr event labels).length ≤
      (hmTracksId event labels).length := by
  rw [hmRecoNZ_length, hmTracksId, List.length_map]
  exact List.countP_le_length _

theorem mem_hmRecoNZ {thr : ℚ} {event : List Hit} {labels : List ℤ} {v : ℤ}
    (hv : v ∈ hmRecoNZ thr event labels) :
    v ≠ -1 ∧ ∃ g ∈ hmGroups labels, v = dominantOf (groupOf event labels g) := by
  rw [hmRecoNZ_eq] at hv
  rcases List.mem_filter.mp hv with ⟨hv1, hv2⟩
  rcases List.mem_map.mp hv1 with ⟨g, hg, rfl⟩
  exact ⟨by simpa using hv2,
    g, List.mem_of_mem_filter hg, rfl⟩

theorem mem_hmGroups {labels : List ℤ} {g : ℤ} (hg : g ∈ hmGroups labels) :
    g ∈ labels ∧ g ≠ -1 := by
  rcases List.mem_filter.mp hg with ⟨hg1, hg2⟩
  exact ⟨mem_uniqueSorted.mp hg1, by simpa using hg2⟩

theorem uniqueRecoNZ_subset {thr : ℚ} {event : List Hit} {labels : List ℤ}
    (hlen : labels.length = event.length) :
    uniqueSorted (hmRecoNZ thr event labels) ⊆
      (uniqueSorted (event.map Hit.trackID)).filter (· ≠ -1) := by
  intro v hv
  rcases mem_hmRecoNZ (mem_uniqueSorted.mp hv) with ⟨hne, g, hg, rfl⟩
  rcases mem_hmGroups hg with ⟨hgl, _⟩
  have hmem : dominantOf (groupOf event labels g) ∈ event.map Hit.trackID :=
    groupOf_subset event labels g
      (dominantOf_mem (groupOf_ne_nil hlen hgl))
  exact List.mem_filter.mpr
    ⟨mem_uniqueSorted.mpr hmem, by simpa using hne⟩

theorem uniqueRecoNZ_length_le {thr : ℚ} {event : List Hit}
    {labels : List ℤ} (hlen : labels.length = event.length) :
    (uniqueSorted (hmRecoNZ thr event labels)).length ≤ nTracksOf event :=
  length_le_of_nodup_subset (nodup_uniqueSorted _) (uniqueRecoNZ_subset hlen)

theorem sum_count_uniqueSorted (l : List ℤ) :
    ((uniqueSorted l).map (fun v => l.count v)).sum = l.length := by
  have hfin : (uniqueSorted l).toFinset = l.toFinset := by
    ext a
    simp [List.mem_toFinset, mem_uniqueSorted]
  rw [← List.sum_toFinset _ (nodup_uniqueSorted l), hfin]
  simp [Multiset.toFinset_sum_count_eq (l : Multiset ℤ)]

theorem sum_cast_sub_one (u : List ℤ) (c : ℤ → ℕ) :
    (u.map (fun v => (c v : ℚ) - 1)).sum =
      ((u.map c).sum : ℕ) - (u.length : ℚ) := by
  induction u with
  | nil => simp
  | cons x xs ih =>
    simp only [List.map_cons, List.sum_cons, ih, List.length_cons]
    push_cast
    ring

end Metrics

namespace Metrics

theorem innerScan_true (dk db : ℚ) (p : ℚ × ℚ) :
    ∀ l : List ((ℚ × ℚ) × Bool), innerScan dk db p l true =
      ⟨l.countP (fun t => matchParam dk db t.1 p), 0, l, true⟩ := by
  intro l
  induction l with
  | nil => simp [innerScan, List.countP_nil]
  | cons t rest ih =>
    by_cases hm : matchParam dk db t.1 p
    · simp [innerScan, hm, ih, List.countP_cons]
    · simp [innerScan, hm, ih, List.countP_cons]

theorem innerScan_m (dk db : ℚ) (p : ℚ × ℚ) :
    ∀ (l : List ((ℚ × ℚ) × Bool)) (u : Bool), (innerScan dk db p l u).m =
      l.countP (fun t => matchParam dk db t.1 p) := by
  intro l
  induction l with
  | nil => intro u; simp [innerScan, List.countP_nil]
  | cons t rest ih =>
    intro u
    by_cases hm : matchParam dk db t.1 p
    · by_cases hu : (!t.2 && !u) = true
      · simp [innerScan, hm, hu, ih, List.countP_cons]
      · simp [innerScan, hm, hu, ih, List.countP_cons]
    · simp [innerScan, hm, ih, List.countP_cons]

theorem innerScan_usedCount (dk db : ℚ) (p : ℚ × ℚ) :
    ∀ (l : List ((ℚ × ℚ) × Bool)) (u : Bool),
      usedCount (innerScan dk db p l u).tus =
        usedCount l + (innerScan dk db p l u).r := by
  intro l
  induction l with
  | nil => intro u; simp [innerScan, usedCount]
  | cons t rest ih =>
    intro u
    obtain ⟨tp, tu⟩ := t
    by_cases hm : matchParam dk db tp p <;> cases tu <;> cases u <;>
      · have h1 := ih true
        have h2 := ih false
        simp only [usedCount] at h1 h2 ⊢
        simp [innerScan, hm, List.countP_cons, h1, h2] <;> omega

theorem innerScan_length (dk db : ℚ) (p : ℚ × ℚ) :
    ∀ (l : List ((ℚ × ℚ) × Bool)) (u : Bool),
      (innerScan dk db p l u).tus.length = l.length := by
  intro l
  induction l with
  | nil => intro u; simp [innerScan]
  | cons t rest ih =>
    intro u
    by_cases hm : matchParam dk db t.1 p
    · by_cases hu : (!t.2 && !u) = true
      · simp [innerScan, hm, hu, ih]
      · simp [innerScan, hm, hu, ih]
    · simp [innerScan, hm, ih]

theorem innerScan_r_le_one (dk db : ℚ) (p : ℚ × ℚ) :
    ∀ l : List ((ℚ × ℚ) × Bool), (innerScan dk db p l false).r ≤ 1 := by
  intro l
  induction l with
  | nil => simp [innerScan]
  | cons t rest ih =>
    by_cases hm : matchParam dk db t.1 p
    · by_cases ht : t.2
      · simp [innerScan, hm, ht, ih]
      · simp [innerScan, hm, ht, innerScan_true]
    · simp [innerScan, hm, ih]

theorem innerScan_r_le_m (dk db : ℚ) (p : ℚ × ℚ) :
    ∀ (l : List ((ℚ × ℚ) × Bool)) (u : Bool),
      (innerScan dk db p l u).r ≤ (innerScan dk db p l u).m := by
  intro l
  induction l with
  | nil => intro u; simp [innerScan]
  | cons t rest ih =>
    intro u
    by_cases hm : matchParam dk db t.1 p
    · by_cases hu : (!t.2 && !u) = true
      · simpa [innerScan, hm, hu] using ih true
      · simpa [innerScan, hm, hu] using le_trans (ih u) (Nat.le_succ _)
    · simpa [innerScan, hm] using ih u

theorem innerScan_false_spec (dk db : ℚ) (p : ℚ × ℚ) :
    ∀ l : List ((ℚ × ℚ) × Bool),
      (innerScan dk db p l false).tus = (specFlipFirst dk db p l).2 ∧
      (innerScan dk db p l false).r =
        (if (specFlipFirst dk db p l).1 then 1 else 0) := by
  intro l
  induction l with
  | nil => simp [innerScan, specFlipFirst]
  | cons t rest ih =>
    by_cases hm : matchParam dk db t.1 p
    · by_cases ht : t.2
      · simp [innerScan, specFlipFirst, hm, ht, ih]
      · simp [innerScan, specFlipFirst, hm, ht, innerScan_true]
    · simp [innerScan, specFlipFirst, hm, ih]

theorem outerScan_usedCount (dk db : ℚ) :
    ∀ (ps : List (ℚ × ℚ)) (tus : List ((ℚ × ℚ) × Bool)),
      usedCount (outerScan dk db ps tus).2.2 =
        usedCount tus + (outerScan dk db ps tus).1 := by
  intro ps
  induction ps with
  | nil => intro tus; simp [outerScan]
  | cons p ps ih =>
    intro tus
    simp only [outerScan]
    rw [ih, innerScan_usedCount]
    omega

theorem outerScan_length (dk db : ℚ) :
    ∀ (ps : List (ℚ × ℚ)) (tus : List ((ℚ × ℚ) × Bool)),
      (outerScan dk db ps tus).2.2.length = tus.length := by
  intro ps
  induction ps with
  | nil => intro tus; simp [outerScan]
  | cons p ps ih =>
    intro tus
    simp only [outerScan]
    rw [ih, innerScan_length]

theorem outerScan_rec_le (dk db : ℚ) (ps : List (ℚ × ℚ))
    (tus : List ((ℚ × ℚ) × Bool)) (h0 : usedCount tus = 0) :
    (outerScan dk db ps tus).1 ≤ tus.length := by
  have h1 := outerScan_usedCount dk db ps tus
  have h2 := outerScan_length dk db ps tus
  have h3 : usedCount (outerScan dk db ps tus).2.2 ≤
      (outerScan dk db ps tus).2.2.length := List.countP_le_length _
  omega

theorem outerScan_rec_add_ghost_le (dk db : ℚ) :
    ∀ (ps : List (ℚ × ℚ)) (tus : List ((ℚ × ℚ) × Bool)),
      (outerScan dk db ps tus).1 + (outerScan dk db ps tus).2.1 ≤
        ps.length := by
  intro ps
  induction ps with
  | nil => intro tus; simp [outerScan]
  | cons p ps ih =>
    intro tus
    simp only [outerScan, List.length_cons]
    have hgroup : (innerScan dk db p tus false).r +
        (if (innerScan dk db p tus false).m = 0 then 1 else 0) ≤ 1 := by
      by_cases hm : (innerScan dk db p tus false).m = 0
      · have : (innerScan dk db p tus false).r = 0 :=
          Nat.le_zero.mp (hm ▸ innerScan_r_le_m dk db p tus false)
        simp [hm, this]
      · simpa [hm] using innerScan_r_le_one dk db p tus
    have := ih (innerScan dk db p tus false).tus
    omega

theorem outerScan_spec (dk db : ℚ) :
    ∀ (ps : List (ℚ × ℚ)) (tus : List ((ℚ × ℚ) × Bool)),
      ((outerScan dk db ps tus).1, (outerScan dk db ps tus).2.1) =
        specGreedyCounts dk db ps tus := by
  intro ps
  induction ps with
  | nil => intro tus; simp [outerScan, specGreedyCounts]
  | cons p ps ih =>
    intro tus
    rcases innerScan_false_spec dk db p tus with ⟨htus, hr⟩
    have hm := innerScan_m dk db p tus false
    simp only [outerScan, specGreedyCounts]
    rw [← htus, ← ih (innerScan dk db p tus false).tus]
    simp only [Prod.mk.injEq]
    constructor
    · rw [hr]
    · rw [hm]

end Metrics

namespace Metrics

/-- Claim C1 counterexample: with the two-hit event whose hits both
belong to track `0` but are split into the two groups `5` and `6`
(a clone situation), the code's `ghost_rate_` is `0` while the spec's
formula `(|R| - |D|) / n_tracks` gives `1`. -/
theorem claim_C1_counterexample :
    (hitsFit (1/2) ([⟨0, 0, 0⟩, ⟨0, 1, 1⟩] : List Hit)
        ([5, 6] : List ℤ)).ghost_rate_ = 0 ∧
    specGhostRate (1/2) ([⟨0, 0, 0⟩, ⟨0, 1, 1⟩] : List Hit)
        ([5, 6] : List ℤ) = 1 ∧
    (0 : ℚ) ≠ 1 := by
  refine ⟨?_, ?_, by norm_num⟩ <;>
    norm_num [hitsFit, specGhostRate, hmRecoNZ, hmReco, hmEfficiencies,
      hmTracksId, hmGroups, groupOf, effOf, maxCount, dominantOf, nTracksOf,
      uniqueSorted, insertSorted, List.count_cons, List.filter, List.zip,
      List.zipWith, List.find?]

/-- Claim C1 amended: for every event and labels with `n_tracks > 0`,
`ghost_rate_` equals (total number of groups − number of groups that
pass the efficiency threshold and have dominant TrackID ≠ -1, counted
with multiplicity) / `n_tracks`.  Unlike the spec's formula, groups
below the threshold count as ghosts and clones do not. -/
theorem claim_C1_amended (thr : ℚ) (event : List Hit) (labels : List ℤ)
    (hn : 0 < nTracksOf event) :
    (hitsFit thr event labels).ghost_rate_ =
      amendedGhostRate thr event labels := by
  simp only [hitsFit, amendedGhostRate, hn, if_true]
  rw [hmRecoNZ_length]
  simp [hmTracksId, hmGroups]

/-- Witness for `claim_C1_amended` at a concrete one-track event. -/
theorem claim_C1_witness :
    0 < nTracksOf ([⟨0, 0, 0⟩] : List Hit) ∧
    (hitsFit (1/2) ([⟨0, 0, 0⟩] : List Hit) ([5] : List ℤ)).ghost_rate_ =
      amendedGhostRate (1/2) ([⟨0, 0, 0⟩] : List Hit) ([5] : List ℤ) :=
  ⟨by decide, claim_C1_amended (1/2) _ _ (by decide)⟩

/-- Claim C2 counterexample: on TrackIDs `[0,0,0,1,1,-1]` with labels
`[5,5,5,5,6,6]` and threshold `0.5`, group `6`'s TrackIDs are `[1,-1]`,
a tie that ascending-value iteration breaks toward `-1`, not `1` as the
claim states; consequently `reconstruction_efficiency_` is `0.5`
(not `1.0`) and `ghost_rate_` is `0.5` (not `0.0`). -/
theorem claim_C2_counterexample :
    dominantOf (groupOf
        ([⟨0,0,0⟩, ⟨0,0,0⟩, ⟨0,0,0⟩, ⟨1,0,0⟩, ⟨1,0,0⟩, ⟨-1,0,0⟩] : List Hit)
        ([5, 5, 5, 5, 6, 6] : List ℤ) 6) = -1 ∧
    (-1 : ℤ) ≠ 1 ∧
    (hitsFit (1/2)
        ([⟨0,0,0⟩, ⟨0,0,0⟩, ⟨0,0,0⟩, ⟨1,0,0⟩, ⟨1,0,0⟩, ⟨-1,0,0⟩] : List Hit)
        ([5, 5, 5, 5, 6, 6] : List ℤ)).reconstruction_efficiency_ = 1/2 ∧
    (1/2 : ℚ) ≠ 1 := by
  refine ⟨by decide, by decide, ?_, by norm_num⟩
  norm_num [hitsFit, hmRecoNZ, hmReco, hmEfficiencies, hmTracksId, hmGroups,
    groupOf, effOf, maxCount, dominantOf, nTracksOf, uniqueSorted,
    insertSorted, List.count_cons, List.filter, List.zip, List.zipWith,
    List.find?]

/-- Claim C2 amended: on that input the efficiencies are `0.75` and
`0.5` as claimed and `n_tracks = 2`, but group `6`'s dominant TrackID is
`-1` (tie with `1`, broken toward the smaller value), so only track `0`
is reconstructed: `reconstruction_efficiency_ = 0.5`,
`ghost_rate_ = 0.5`, `clone_rate_ = 0.0`. -/
theorem claim_C2_amended :
    hitsFit (1/2)
        ([⟨0,0,0⟩, ⟨0,0,0⟩, ⟨0,0,0⟩, ⟨1,0,0⟩, ⟨1,0,0⟩, ⟨-1,0,0⟩] : List Hit)
        ([5, 5, 5, 5, 6, 6] : List ℤ) =
      ⟨[3/4, 1/2], some (5/8), 1/2, 1/2, 0⟩ ∧
    hmTracksId
        ([⟨0,0,0⟩, ⟨0,0,0⟩, ⟨0,0,0⟩, ⟨1,0,0⟩, ⟨1,0,0⟩, ⟨-1,0,0⟩] : List Hit)
        ([5, 5, 5, 5, 6, 6] : List ℤ) = [0, -1] ∧
    nTracksOf
        ([⟨0,0,0⟩, ⟨0,0,0⟩, ⟨0,0,0⟩, ⟨1,0,0⟩, ⟨1,0,0⟩, ⟨-1,0,0⟩] : List Hit)
      = 2 := by
  refine ⟨?_, by decide, by decide⟩
  norm_num [hitsFit, hmRecoNZ, hmReco, hmEfficiencies, hmTracksId, hmGroups,
    groupOf, effOf, maxCount, dominantOf, nTracksOf, uniqueSorted,
    insertSorted, List.count_cons, List.filter, List.zip, List.zipWith,
    List.find?]

/-- Claim C3 counterexample: an event of only noise hits
(`n_tracks = 0`) grouped into one label still gets
`avg_efficiency_ = 1`, not `0`: the hit-matching scorer computes the
mean of the per-group efficiencies unconditionally, so not all four of
its outputs are `0` when `n_tracks = 0`. -/
theorem claim_C3_counterexample :
    nTracksOf ([⟨-1, 0, 0⟩, ⟨-1, 0, 0⟩] : List Hit) = 0 ∧
    (hitsFit (1/2) ([⟨-1, 0, 0⟩, ⟨-1, 0, 0⟩] : List Hit)
        ([5, 5] : List ℤ)).avg_efficiency_ = some 1 ∧
    some (1 : ℚ) ≠ some (0 : ℚ) := by
  refine ⟨by decide, ?_, by norm_num⟩
  norm_num [hitsFit, hmRecoNZ, hmReco, hmEfficiencies, hmTracksId, hmGroups,
    groupOf, effOf, maxCount, dominantOf, nTracksOf, uniqueSorted,
    insertSorted, List.count_cons, List.filter, List.zip, List.zipWith,
    List.find?]

/-- Claim C3 amended: when `n_tracks = 0` the three rate outputs of the
hit-matching scorer and all three outputs of the parameter-matching
scorer are exactly `0` with no division performed; `avg_efficiency_` is
not guarded and remains the mean of the per-group efficiencies. -/
theorem claim_C3_amended (thr dk db : ℚ) (event : List Hit)
    (labels : List ℤ) (h0 : nTracksOf event = 0) :
    (hitsFit thr event labels).reconstruction_efficiency_ = 0 ∧
    (hitsFit thr event labels).ghost_rate_ = 0 ∧
    (hitsFit thr event labels).clone_rate_ = 0 ∧
    paramFit dk db event labels = ⟨0, 0, 0⟩ := by
  refine ⟨?_, ?_, ?_, ?_⟩ <;> simp [hitsFit, paramFit, h0]

/-- Witness for `claim_C3_amended` at a concrete noise-only event. -/
theorem claim_C3_witness :
    nTracksOf ([⟨-1, 0, 0⟩] : List Hit) = 0 ∧
    ((hitsFit (1/2) ([⟨-1, 0, 0⟩] : List Hit)
        ([5] : List ℤ)).reconstruction_efficiency_ = 0 ∧
      (hitsFit (1/2) ([⟨-1, 0, 0⟩] : List Hit)
        ([5] : List ℤ)).ghost_rate_ = 0 ∧
      (hitsFit (1/2) ([⟨-1, 0, 0⟩] : List Hit)
        ([5] : List ℤ)).clone_rate_ = 0 ∧
      paramFit 1 1 ([⟨-1, 0, 0⟩] : List Hit) ([5] : List ℤ) = ⟨0, 0, 0⟩) :=
  ⟨by decide, claim_C3_amended (1/2) 1 1 _ _ (by decide)⟩

/-- Claim C5 counterexample: an event whose only true track has a single
hit (fewer than 2 hits, zero `X`-variance) does not make the
parameter-matching `fit` raise `DegenerateFitError` — no such exception
class exists in the code; the call completes. -/
theorem claim_C5_counterexample :
    (truePoints ([⟨0, 0, 0⟩] : List Hit) 0).length < 2 ∧
    paramFitE 1 1 ([⟨0, 0, 0⟩] : List Hit) ([5] : List ℤ) ≠
      Except.error FitError.degenerateFitError := by
  refine ⟨by decide, ?_⟩
  rw [paramFitE]
  split
  · exact fun h => FitError.noConfusion (Except.error.inj h)
  · exact fun h => Except.noConfusion h

/-- Claim C5 amended: the parameter-matching scorer never raises a
`DegenerateFitError` on a degenerate track or group: the least-squares
routine returns the minimum-norm solution, slope `0` and intercept
`mean(y)`, for every non-empty point set with zero variance in `X`
(which covers every single-hit track/group), and `fit` silently uses
that fit rather than reporting a degenerate-fit error. -/
theorem claim_C5_amended (dk db : ℚ) (event : List Hit) (labels : List ℤ)
    (pts : List (ℚ × ℚ)) (c : ℚ) (hne : pts ≠ [])
    (hx : ∀ q ∈ pts, q.1 = c) :
    olsFit pts = (0, (pts.map Prod.snd).sum / (pts.length : ℚ)) ∧
    paramFitE dk db event labels ≠
      Except.error FitError.degenerateFitError := by
  refine ⟨?_, by
    rw [paramFitE]
    split
    · exact fun h => FitError.noConfusion (Except.error.inj h)
    · exact fun h => Except.noConfusion h⟩
  have hlen : pts.length ≠ 0 := fun h => hne (List.length_eq_zero.mp h)
  have hlenQ : (pts.length : ℚ) ≠ 0 := Nat.cast_ne_zero.mpr hlen
  have hfst : pts.map Prod.fst = List.replicate pts.length c := by
    refine List.eq_replicate_iff.mpr ⟨by simp, ?_⟩
    intro b hb
    rcases List.mem_map.mp hb with ⟨q, hq, rfl⟩
    exact hx q hq
  have hxbar : (pts.map Prod.fst).sum / (pts.length : ℚ) = c := by
    rw [hfst, List.sum_replicate, nsmul_eq_mul]
    field_simp
  have hsxx : (pts.map
      (fun p => (p.1 - (pts.map Prod.fst).sum / (pts.length : ℚ)) ^ 2)).sum
      = 0 := by
    rw [hxbar]
    refine List.sum_eq_zero ?_
    intro e he
    rcases List.mem_map.mp he with ⟨q, hq, rfl⟩
    rw [hx q hq]
    ring
  simp only [olsFit, hlen, if_false]
  rw [hsxx]
  simp

/-- Witness for `claim_C5_amended` at the two-point vertical set
`{(2,5), (2,7)}`. -/
theorem claim_C5_witness :
    (([((2 : ℚ), (5 : ℚ)), (2, 7)] : List (ℚ × ℚ)) ≠ [] ∧
      ∀ q ∈ ([((2 : ℚ), (5 : ℚ)), (2, 7)] : List (ℚ × ℚ)), q.1 = 2) ∧
    olsFit ([((2 : ℚ), (5 : ℚ)), (2, 7)] : List (ℚ × ℚ)) =
      (0, (([((2 : ℚ), (5 : ℚ)), (2, 7)] : List (ℚ × ℚ)).map Prod.snd).sum /
        (([((2 : ℚ), (5 : ℚ)), (2, 7)] : List (ℚ × ℚ)).length : ℚ)) ∧
    paramFitE 1 1 ([⟨0, 0, 0⟩] : List Hit) ([5] : List ℤ) ≠
      Except.error FitError.degenerateFitError :=
  ⟨⟨by simp, by intro q hq; simp only [List.mem_cons, List.mem_singleton,
      List.not_mem_nil, or_false] at hq; rcases hq with rfl | rfl <;> norm_num⟩,
    claim_C5_amended 1 1 _ _ _ 2 (by simp)
      (by intro q hq; simp only [List.mem_cons, List.mem_singleton,
        List.not_mem_nil, or_false] at hq; rcases hq with rfl | rfl <;> norm_num)⟩

end Metrics

namespace Metrics

theorem effOf_nonneg (t : List ℤ) : 0 ≤ effOf t :=
  div_nonneg (Nat.cast_nonneg _) (Nat.cast_nonneg _)

theorem effOf_le_one (t : List ℤ) : effOf t ≤ 1 := by
  rcases eq_or_ne t [] with rfl | hne
  · simp [effOf]
  · have hl : 0 < (t.length : ℚ) := by
      exact_mod_cast List.length_pos.mpr hne
    exact (div_le_one hl).mpr (by exact_mod_cast maxCount_le_length t)

theorem effOf_homogeneous {t : List ℤ} {t0 : ℤ} (hne : t ≠ [])
    (hall : ∀ v ∈ t, v = t0) : effOf t = 1 := by
  have hcount : t.count t0 = t.length :=
    List.count_eq_length.mpr (fun b hb => (hall b hb).symm)
  have hmax : maxCount t = t.length :=
    le_antisymm (maxCount_le_length t) (hcount ▸ count_le_maxCount t t0)
  have hl : (t.length : ℚ) ≠ 0 := by
    exact_mod_cast (List.length_pos.mpr hne).ne'
  rw [effOf, hmax, div_self hl]

/-- Claim C6: the parameter-matching scorer matches a (group, track)
pair iff both parameter differences are within the tolerances, counts
greedy first-found-wins pairings of previously unused groups and tracks
(groups in ascending label order, true tracks in ascending TrackID
order, as `recoParams`/`trueParams` are built), counts a group with zero
matchings as a ghost, and reports
`reconstruction_efficiency_ = n_reconstructions / n_tracks`,
`ghost_rate_ = n_ghosts / n_tracks`, and `clone_rate_ =
(total_groups - n_reconstructions - n_ghosts) / n_tracks` with
`total_groups` the number of distinct non-`-1` labels. -/
theorem claim_C6 (dk db : ℚ) (event : List Hit) (labels : List ℤ)
    (hn : 0 < nTracksOf event) :
    (∀ tp p : ℚ × ℚ, matchParam dk db tp p = true ↔
      (|tp.1 - p.1| ≤ dk ∧ |tp.2 - p.2| ≤ db)) ∧
    (paramFit dk db event labels).reconstruction_efficiency_ =
      ((specGreedyCounts dk db (recoParams event labels)
        ((trueParams event).map (fun t => (t, false)))).1 : ℚ) /
        (nTracksOf event : ℚ) ∧
    (paramFit dk db event labels).ghost_rate_ =
      ((specGreedyCounts dk db (recoParams event labels)
        ((trueParams event).map (fun t => (t, false)))).2 : ℚ) /
        (nTracksOf event : ℚ) ∧
    (paramFit dk db event labels).clone_rate_ =
      (((recoParams event labels).length : ℚ) -
        ((specGreedyCounts dk db (recoParams event labels)
          ((trueParams event).map (fun t => (t, false)))).1 : ℚ) -
        ((specGreedyCounts dk db (recoParams event labels)
          ((trueParams event).map (fun t => (t, false)))).2 : ℚ)) /
        (nTracksOf event : ℚ) ∧
    (recoParams event labels).length =
      ((uniqueSorted labels).filter (· ≠ -1)).length := by
  have hspec := outerScan_spec dk db (recoParams event labels)
    ((trueParams event).map (fun t => (t, false)))
  have h1 : (outerScan dk db (recoParams event labels)
      ((trueParams event).map (fun t => (t, false)))).1 =
      (specGreedyCounts dk db (recoParams event labels)
        ((trueParams event).map (fun t => (t, false)))).1 :=
    congrArg Prod.fst hspec
  have h2 : (outerScan dk db (recoParams event labels)
      ((trueParams event).map (fun t => (t, false)))).2.1 =
      (specGreedyCounts dk db (recoParams event labels)
        ((trueParams event).map (fun t => (t, false)))).2 :=
    congrArg Prod.snd hspec
  refine ⟨fun tp p => by simp [matchParam], ?_, ?_, ?_,
    by simp [recoParams, hmGroups]⟩ <;>
    simp [paramFit, hn, h1, h2]

/-- Witness for `claim_C6` at a concrete one-track, one-group event. -/
theorem claim_C6_witness :
    0 < nTracksOf ([⟨0, 0, 0⟩, ⟨0, 1, 1⟩] : List Hit) ∧
    (paramFit 1 1 ([⟨0, 0, 0⟩, ⟨0, 1, 1⟩] : List Hit)
        ([7, 7] : List ℤ)).reconstruction_efficiency_ =
      ((specGreedyCounts 1 1
        (recoParams ([⟨0, 0, 0⟩, ⟨0, 1, 1⟩] : List Hit) ([7, 7] : List ℤ))
        ((trueParams ([⟨0, 0, 0⟩, ⟨0, 1, 1⟩] : List Hit)).map
          (fun t => (t, false)))).1 : ℚ) /
        (nTracksOf ([⟨0, 0, 0⟩, ⟨0, 1, 1⟩] : List Hit) : ℚ) :=
  ⟨by decide, (claim_C6 1 1 _ _ (by decide)).2.1⟩

/-- Claim C7: the dominant true track of every reconstructed group is a
most frequent TrackID among the group's hits, ties are broken toward the
smallest such TrackID (ascending-value iteration), `tracks_id` is
exactly the per-group list of these dominants, and a group whose hits
are all noise gets `-1` as its assigned true track id. -/
theorem claim_C7 (event : List Hit) (labels : List ℤ) (g : ℤ)
    (hlen : labels.length = event.length) (hg : g ∈ hmGroups labels) :
    hmTracksId event labels =
      (hmGroups labels).map (fun h => dominantOf (groupOf event labels h)) ∧
    dominantOf (groupOf event labels g) ∈ groupOf event labels g ∧
    (∀ v : ℤ, (groupOf event labels g).count v ≤
      (groupOf event labels g).count (dominantOf (groupOf event labels g))) ∧
    (∀ v ∈ groupOf event labels g,
      (groupOf event labels g).count v =
        (groupOf event labels g).count
          (dominantOf (groupOf event labels g)) →
      dominantOf (groupOf event labels g) ≤ v) ∧
    ((∀ v ∈ groupOf event labels g, v = -1) →
      dominantOf (groupOf event labels g) = -1) := by
  have hne : groupOf event labels g ≠ [] :=
    groupOf_ne_nil hlen (mem_hmGroups hg).1
  have hcd := count_dominantOf hne
  refine ⟨rfl, dominantOf_mem hne, ?_, ?_, ?_⟩
  · intro v
    rw [hcd]
    exact count_le_maxCount _ v
  · intro v hv hcv
    rw [hcd] at hcv
    exact dominantOf_le hne hv hcv
  · intro hall
    exact hall _ (dominantOf_mem hne)

/-- Witness for `claim_C7` on a two-hit group dominated by track `0`. -/
theorem claim_C7_witness :
    ([5, 5] : List ℤ).length = ([⟨0, 0, 0⟩, ⟨1, 0, 0⟩] : List Hit).length ∧
    (5 : ℤ) ∈ hmGroups ([5, 5] : List ℤ) ∧
    dominantOf (groupOf ([⟨0, 0, 0⟩, ⟨1, 0, 0⟩] : List Hit)
        ([5, 5] : List ℤ) 5) ∈
      groupOf ([⟨0, 0, 0⟩, ⟨1, 0, 0⟩] : List Hit) ([5, 5] : List ℤ) 5 :=
  ⟨by decide, by decide, (claim_C7 _ _ 5 (by decide) (by decide)).2.1⟩

/-- Claim C8: for every event and labels (of matching lengths, per the
input contract), both scorers report
`reconstruction_efficiency_ ≤ 1`, `ghost_rate_ ≥ 0` and
`clone_rate_ ≥ 0`. -/
theorem claim_C8 (thr dk db : ℚ) (event : List Hit) (labels : List ℤ)
    (hlen : labels.length = event.length) :
    (hitsFit thr event labels).reconstruction_efficiency_ ≤ 1 ∧
    0 ≤ (hitsFit thr event labels).ghost_rate_ ∧
    0 ≤ (hitsFit thr event labels).clone_rate_ ∧
    (paramFit dk db event labels).reconstruction_efficiency_ ≤ 1 ∧
    0 ≤ (paramFit dk db event labels).ghost_rate_ ∧
    0 ≤ (paramFit dk db event labels).clone_rate_ := by
  by_cases hn : 0 < nTracksOf event
  · have hnQ : (0 : ℚ) < (nTracksOf event : ℚ) := by exact_mod_cast hn
    have husedzero : usedCount ((trueParams event).map
        (fun t => (t, false))) = 0 := by
      simp [usedCount, List.countP_map, Function.comp]
    have htuslen : ((trueParams event).map
        (fun t => (t, false))).length = nTracksOf event := by
      simp [trueParams, nTracksOf]
    have hrec_le : (outerScan dk db (recoParams event labels)
        ((trueParams event).map (fun t => (t, false)))).1 ≤
        nTracksOf event :=
      htuslen ▸ outerScan_rec_le dk db _ _ husedzero
    have hrg_le := outerScan_rec_add_ghost_le dk db
      (recoParams event labels)
      ((trueParams event).map (fun t => (t, false)))
    refine ⟨?_, ?_, ?_, ?_, ?_, ?_⟩
    · simp only [hitsFit, hn, if_true]
      exact (div_le_one hnQ).mpr
        (by exact_mod_cast uniqueRecoNZ_length_le hlen)
    · simp only [hitsFit, hn, if_true]
      refine div_nonneg (sub_nonneg.mpr ?_) hnQ.le
      exact_mod_cast hmRecoNZ_length_le thr event labels
    · simp only [hitsFit, hn, if_true]
      refine div_nonneg (List.sum_nonneg ?_) hnQ.le
      intro x hx
      rcases List.mem_map.mp hx with ⟨v, hv, rfl⟩
      have hvc : 1 ≤ (hmRecoNZ thr event labels).count v :=
        List.count_pos_iff.mpr (mem_uniqueSorted.mp hv)
      have : (1 : ℚ) ≤ ((hmRecoNZ thr event labels).count v : ℚ) := by
        exact_mod_cast hvc
      linarith
    · simp only [paramFit, hn, if_true]
      exact (div_le_one hnQ).mpr (by exact_mod_cast hrec_le)
    · simp only [paramFit, hn, if_true]
      exact div_nonneg (Nat.cast_nonneg _) hnQ.le
    · simp only [paramFit, hn, if_true]
      refine div_nonneg ?_ hnQ.le
      have : ((outerScan dk db (recoParams event labels)
          ((trueParams event).map (fun t => (t, false)))).1 : ℚ) +
          ((outerScan dk db (recoParams event labels)
            ((trueParams event).map (fun t => (t, false)))).2.1 : ℚ) ≤
          ((recoParams event labels).length : ℚ) := by
        exact_mod_cast hrg_le
      linarith
  · refine ⟨?_, ?_, ?_, ?_, ?_, ?_⟩ <;> simp [hitsFit, paramFit, hn]

/-- Witness for `claim_C8` at a concrete one-track, one-group event. -/
theorem claim_C8_witness :
    ([5] : List ℤ).length = ([⟨0, 0, 0⟩] : List Hit).length ∧
    (hitsFit (1/2) ([⟨0, 0, 0⟩] : List Hit)
        ([5] : List ℤ)).reconstruction_efficiency_ ≤ 1 ∧
    0 ≤ (hitsFit (1/2) ([⟨0, 0, 0⟩] : List Hit)
        ([5] : List ℤ)).ghost_rate_ :=
  ⟨by decide, (claim_C8 (1/2) 1 1 _ _ (by decide)).1,
    (claim_C8 (1/2) 1 1 _ _ (by decide)).2.1⟩

/-- Claim C9: every element of `efficiencies_` lies in `[0, 1]`, and a
non-empty group whose hits all carry one single TrackID has efficiency
exactly `1`, that efficiency appearing in `efficiencies_`. -/
theorem claim_C9 (thr : ℚ) (event : List Hit) (labels : List ℤ) (t0 : ℤ) :
    (∀ e ∈ (hitsFit thr event labels).efficiencies_, 0 ≤ e ∧ e ≤ 1) ∧
    (∀ g ∈ hmGroups labels, groupOf event labels g ≠ [] →
      (∀ v ∈ groupOf event labels g, v = t0) →
      effOf (groupOf event labels g) = 1 ∧
      effOf (groupOf event labels g) ∈
        (hitsFit thr event labels).efficiencies_) := by
  constructor
  · intro e he
    have he2 : e ∈ hmEfficiencies event labels := he
    rcases List.mem_map.mp he2 with ⟨g, _, rfl⟩
    exact ⟨effOf_nonneg _, effOf_le_one _⟩
  · intro g hg hne hall
    refine ⟨effOf_homogeneous hne hall, ?_⟩
    exact List.mem_map_of_mem (fun h => effOf (groupOf event labels h)) hg

/-- Witness for `claim_C9` on a single-track event whose one group is
pure. -/
theorem claim_C9_witness :
    effOf (groupOf ([⟨3, 0, 0⟩] : List Hit) ([7] : List ℤ) 7) = 1 ∧
    effOf (groupOf ([⟨3, 0, 0⟩] : List Hit) ([7] : List ℤ) 7) ∈
      (hitsFit (1/2) ([⟨3, 0, 0⟩] : List Hit)
        ([7] : List ℤ)).efficiencies_ :=
  (claim_C9 (1/2) ([⟨3, 0, 0⟩] : List Hit) ([7] : List ℤ) 3).2 7
    (by decide) (by decide) (by decide)

/-- Claim C10: with `n_tracks > 0`, for both scorers the three rates sum
to (number of distinct non-`-1` labels) / `n_tracks`. -/
theorem claim_C10 (thr dk db : ℚ) (event : List Hit) (labels : List ℤ)
    (hn : 0 < nTracksOf event) :
    (hitsFit thr event labels).reconstruction_efficiency_ +
      (hitsFit thr event labels).ghost_rate_ +
      (hitsFit thr event labels).clone_rate_ =
      ((hmGroups labels).length : ℚ) / (nTracksOf event : ℚ) ∧
    (paramFit dk db event labels).reconstruction_efficiency_ +
      (paramFit dk db event labels).ghost_rate_ +
      (paramFit dk db event labels).clone_rate_ =
      ((hmGroups labels).length : ℚ) / (nTracksOf event : ℚ) := by
  constructor
  · simp only [hitsFit, hn, if_true]
    rw [div_add_div_same, div_add_div_same]
    congr 1
    rw [sum_cast_sub_one, sum_count_uniqueSorted]
    have hT : ((hmTracksId event labels).length : ℚ) =
        ((hmGroups labels).length : ℚ) := by
      simp [hmTracksId]
    rw [hT]
    ring
  · simp only [paramFit, hn, if_true]
    rw [div_add_div_same, div_add_div_same]
    congr 1
    have hL : ((recoParams event labels).length : ℚ) =
        ((hmGroups labels).length : ℚ) := by
      simp [recoParams]
    rw [hL]
    ring

/-- Witness for `claim_C10` at a concrete one-track, one-group event. -/
theorem claim_C10_witness :
    0 < nTracksOf ([⟨0, 0, 0⟩] : List Hit) ∧
    (hitsFit (1/2) ([⟨0, 0, 0⟩] : List Hit)
        ([5] : List ℤ)).reconstruction_efficiency_ +
      (hitsFit (1/2) ([⟨0, 0, 0⟩] : List Hit)
        ([5] : List ℤ)).ghost_rate_ +
      (hitsFit (1/2) ([⟨0, 0, 0⟩] : List Hit)
        ([5] : List ℤ)).clone_rate_ =
      ((hmGroups ([5] : List ℤ)).length : ℚ) /
        (nTracksOf ([⟨0, 0, 0⟩] : List Hit) : ℚ) :=
  ⟨by decide, (claim_C10 (1/2) 1 1 _ _ (by decide)).1⟩

end Metrics
